import Mathlib

/-!
Verification of the AnonID proof-of-work engine (`anonid_pow/src/lib.rs`).

The Rust code is shallowly embedded: Rust `String` values become `List Char`,
`usize` becomes `Nat` (nonces stay far below `2^64` in every statement here,
and the one place overflow matters — `usize::pow` in `calculate_target` — is
modelled explicitly), and panics (division by zero, overflow under checked
arithmetic, string-slice out of bounds) become `none` / `MineResult.fault`.
The unbounded mining loop of `calculate_pow` is given explicit fuel; a
`found` result of the fuel version coincides with the value the Rust loop
returns.
-/

set_option maxRecDepth 100000
set_option maxHeartbeats 1000000

namespace AnonID

/-- UTF-8 encoding of one Unicode scalar value, as byte values
(Rust `char` encoding; both languages exclude surrogates). -/
def charUtf8 (c : Char) : List Nat :=
  let n := c.toNat
  if n < 128 then [n]
  else if n < 2048 then [192 ||| (n >>> 6), 128 ||| (n &&& 63)]
  else if n < 65536 then
    [224 ||| (n >>> 12), 128 ||| ((n >>> 6) &&& 63), 128 ||| (n &&& 63)]
  else
    [240 ||| (n >>> 18), 128 ||| ((n >>> 12) &&& 63),
     128 ||| ((n >>> 6) &&& 63), 128 ||| (n &&& 63)]

/-- Concatenation of the images of a list-valued map. -/
def concatMap (f : α → List β) : List α → List β
  | [] => []
  | a :: as => f a ++ concatMap f as

/-- UTF-8 bytes of a string (Rust `str::as_bytes`). -/
def strUtf8 (s : List Char) : List Nat := concatMap charUtf8 s

/-- SHA-256 round constants. -/
def K : List Nat :=
  [1116352408, 1899447441, 3049323471, 3921009573, 961987163,
   1508970993, 2453635748, 2870763221, 3624381080, 310598401,
   607225278, 1426881987, 1925078388, 2162078206, 2614888103,
   3248222580, 3835390401, 4022224774, 264347078, 604807628,
   770255983, 1249150122, 1555081692, 1996064986, 2554220882,
   2821834349, 2952996808, 3210313671, 3336571891, 3584528711,
   113926993, 338241895, 666307205, 773529912, 1294757372,
   1396182291, 1695183700, 1986661051, 2177026350, 2456956037,
   2730485921, 2820302411, 3259730800, 3345764771, 3516065817,
   3600352804, 4094571909, 275423344, 430227734, 506948616,
   659060556, 883997877, 958139571, 1322822218, 1537002063,
   1747873779, 1955562222, 2024104815, 2227730452, 2361852424,
   2428436474, 2756734187, 3204031479, 3329325298]

/-- SHA-256 initial hash state. -/
def H0 : List Nat :=
  [1779033703, 3144134277, 1013904242, 2773480762,
   1359893119, 2600822924, 528734635, 1541459225]

/-- Right rotation of a 32-bit word. -/
def rotr (k x : Nat) : Nat := ((x >>> k) ||| (x <<< (32 - k))) &&& 0xffffffff

def bigSigma0 (x : Nat) : Nat := rotr 2 x ^^^ rotr 13 x ^^^ rotr 22 x

def bigSigma1 (x : Nat) : Nat := rotr 6 x ^^^ rotr 11 x ^^^ rotr 25 x

def smallSigma0 (x : Nat) : Nat := rotr 7 x ^^^ rotr 18 x ^^^ (x >>> 3)

def smallSigma1 (x : Nat) : Nat := rotr 17 x ^^^ rotr 19 x ^^^ (x >>> 10)

def ch (x y z : Nat) : Nat := (x &&& y) ^^^ ((x ^^^ 0xffffffff) &&& z)

def maj (x y z : Nat) : Nat := (x &&& y) ^^^ (x &&& z) ^^^ (y &&& z)

/-- The message length in bits, as 8 big-endian bytes. -/
def lenBE8 (n : Nat) : List Nat :=
  [(n >>> 56) &&& 255, (n >>> 48) &&& 255, (n >>> 40) &&& 255, (n >>> 32) &&& 255,
   (n >>> 24) &&& 255, (n >>> 16) &&& 255, (n >>> 8) &&& 255, n &&& 255]

/-- SHA-256 padding: append 0x80, zero bytes up to 56 mod 64, then the bit
length. -/
def padBytes (msg : List Nat) : List Nat :=
  msg ++ 128 :: List.replicate ((119 - msg.length % 64) % 64) 0 ++ lenBE8 (8 * msg.length)

/-- Group bytes into big-endian 32-bit words. -/
def toWords : List Nat → List Nat
  | a :: b :: c :: d :: rest => (((a * 256 + b) * 256 + c) * 256 + d) :: toWords rest
  | _ => []

/-- Extend a 16-word block to the 64-word message schedule (fuel = 48). -/
def extendSchedule : Nat → List Nat → List Nat
  | 0, w => w
  | k + 1, w =>
    let n := w.length
    let next := (smallSigma1 (w.getD (n - 2) 0) + w.getD (n - 7) 0 +
                 smallSigma0 (w.getD (n - 15) 0) + w.getD (n - 16) 0) % 4294967296
    extendSchedule k (w ++ [next])

/-- One SHA-256 compression round on the 8-register working state. -/
def roundStep (st : List Nat) (kw : Nat) : List Nat :=
  let a := st.getD 0 0
  let b := st.getD 1 0
  let c := st.getD 2 0
  let d := st.getD 3 0
  let e := st.getD 4 0
  let f := st.getD 5 0
  let g := st.getD 6 0
  let h := st.getD 7 0
  let t1 := (h + bigSigma1 e + ch e f g + kw) % 4294967296
  let t2 := (bigSigma0 a + maj a b c) % 4294967296
  [(t1 + t2) % 4294967296, a, b, c, (d + t1) % 4294967296, e, f, g]

/-- Compress one 16-word block into the hash state. -/
def compressBlock (st block : List Nat) : List Nat :=
  let w := extendSchedule 48 block
  let kws := List.zipWith (fun k wi => (k + wi) % 4294967296) K w
  let final := kws.foldl roundStep st
  List.zipWith (fun a b => (a + b) % 4294967296) st final

/-- Fold the compression function over all 16-word blocks (structural fuel;
`sha256` passes fuel = word count, always sufficient since each step consumes
a nonempty chunk). -/
def processBlocks : Nat → List Nat → List Nat → List Nat
  | _, st, [] => st
  | 0, st, _ => st
  | fuel + 1, st, ws => processBlocks fuel (compressBlock st (ws.take 16)) (ws.drop 16)

/-- A 32-bit word as 4 big-endian bytes. -/
def wordBytes (w : Nat) : List Nat :=
  [(w >>> 24) &&& 255, (w >>> 16) &&& 255, (w >>> 8) &&& 255, w &&& 255]

/-- SHA-256 of a byte sequence, as 32 bytes. -/
def sha256 (msg : List Nat) : List Nat :=
  let ws := toWords (padBytes msg)
  concatMap wordBytes (processBlocks ws.length H0 ws)

/-- One byte as two lowercase hex characters (zero-padded), as the `sha2`
crate's `LowerHex` instance renders each digest byte. -/
def byteHex (b : Nat) : List Char := [Nat.digitChar (b / 16), Nat.digitChar (b % 16)]

/-- Lowercase hex rendering of a digest, two characters per byte. -/
def digestHex (bs : List Nat) : List Char := concatMap byteHex bs

/-- Decimal digits of a natural number, most significant first (structural
fuel; `natDec` passes fuel = n, always sufficient). -/
def natDecAux : Nat → Nat → List Char → List Char
  | _, 0, acc => acc
  | 0, _, acc => acc
  | fuel + 1, n, acc => natDecAux fuel (n / 10) (Nat.digitChar (n % 10) :: acc)

/-- Decimal rendering of a natural number (Rust display of `usize`). -/
def natDec (n : Nat) : List Char := if n = 0 then ['0'] else natDecAux n n []

/-- Hex digits of a natural number, most significant first (structural fuel;
`natHex` passes fuel = n, always sufficient). -/
def natHexAux : Nat → Nat → List Char → List Char
  | _, 0, acc => acc
  | 0, _, acc => acc
  | fuel + 1, n, acc => natHexAux fuel (n / 16) (Nat.digitChar (n % 16) :: acc)

/-- Lowercase hex rendering of a natural number without leading zeros
(Rust lower-hex formatting of `usize`). -/
def natHex (n : Nat) : List Char := if n = 0 then ['0'] else natHexAux n n []

/-- The characters of a string literal. -/
def chars (s : String) : List Char := s.data

/-- `PoWAlgo`: the pluggable hash algorithm; only SHA-256 exists. -/
inductive PoWAlgo where
  | sha256
deriving DecidableEq

/-- `PoWAlgo::calculate`: hash the `userdata` bytes followed by the bytes of
`":{nonce}"` (colon plus decimal nonce), and render the digest as lowercase
hex. -/
def PoWAlgo.calculate (algo : PoWAlgo) (userdata : List Char) (nonce : Nat) : List Char :=
  match algo with
  | .sha256 => digestHex (AnonID.sha256 (strUtf8 userdata ++ strUtf8 (':' :: natDec nonce)))

/-- `UserData`: a username and the user's auth address. -/
structure UserData where
  username : List Char
  auth_address : List Char
deriving DecidableEq

/-- The Bool-valued predicate "is not a colon", used by the `takeWhile` /
`dropWhile` characterizations of splitting on `:`. -/
def notColon (c : Char) : Bool := c != ':'

/-- Core of splitting on `:` (Rust `str::split` with pattern `":"`):
accumulates the current token in reverse. Like Rust's `split`, it always
yields at least one token, and empty tokens are kept. -/
def splitCore : List Char → List Char → List (List Char)
  | [], acc => [acc.reverse]
  | c :: cs, acc => if c = ':' then acc.reverse :: splitCore cs [] else splitCore cs (c :: acc)

/-- Split a string on `:` (Rust `merged_userdata.split(":").collect()`). -/
def splitColon (s : List Char) : List (List Char) := splitCore s []

/-- `UserData::new`. -/
def UserData.new (username auth_address : List Char) : UserData :=
  ⟨username, auth_address⟩

/-- `UserData::from_merged`: split on `:`; token 0 is the auth address,
token 1 is the username; `none` when token 1 is missing (the `?` operator on
`Vec::get`). -/
def UserData.from_merged (merged_userdata : List Char) : Option UserData :=
  let userdata := splitColon merged_userdata
  match userdata.get? 0, userdata.get? 1 with
  | some auth_address, some username => some ⟨username, auth_address⟩
  | _, _ => none

/-- `UserData::merge`: the canonical merged string `auth_address : username`
with a literal colon between the two fields. -/
def UserData.merge (u : UserData) : List Char :=
  u.auth_address ++ ':' :: u.username

/-- `UserData::username_length`: Rust `String::len`, the UTF-8 byte count of
the username. -/
def UserData.username_length (u : UserData) : Nat :=
  (strUtf8 u.username).length

/-- The spec's reading of `usernameLength`: the count of Unicode scalar
values in the username. Stated from the spec's words, for comparison with
`UserData.username_length` above (which embeds the source). -/
def specUsernameScalarCount (u : UserData) : Nat := u.username.length

/-- `PoW`: userdata, base difficulty, and algorithm. -/
structure PoW where
  userdata : UserData
  difficulty : Nat
  algo : PoWAlgo

/-- `PoW::new`. -/
def PoW.new (userdata : UserData) (difficulty : Nat) (algo : PoWAlgo) : PoW :=
  ⟨userdata, difficulty, algo⟩

/-- `PoW::adjust_difficulty`. `none` models the division-by-zero panic Rust
raises when `difficulty / 2 = 0`, i.e. for difficulty 0 or 1. -/
def PoW.adjust_difficulty (username_length difficulty : Nat) : Option Nat :=
  if difficulty / 2 = 0 then none
  else some (difficulty / max 1 (username_length / (difficulty / 2)))

/-- `PoW::calculate_target`: lower-hex of `usize::pow(2, d as u32) - 1`.
The `as u32` cast truncates the exponent modulo `2 ^ 32` (never a fault);
`none` models the overflow panic of `usize::pow` when the truncated exponent
is 64 or more (64-bit usize, checked arithmetic). -/
def PoW.calculate_target (adjusted_difficulty : Nat) : Option (List Char) :=
  if adjusted_difficulty % 4294967296 < 64 then
    some (natHex (2 ^ (adjusted_difficulty % 4294967296) - 1))
  else none

/-- Outcome of the mining loop under fuel: a runtime fault, fuel exhaustion,
or the first match. -/
inductive MineResult where
  | fault
  | exhausted
  | found (digest : List Char) (nonce : Nat)
deriving DecidableEq

/-- The loop of `PoW::calculate_pow`: try nonces from `nonce` up, at most
`fuel` of them. Slicing `hash` up to the target length panics when the
target is longer than the hash; that is the `fault` outcome. -/
def mineLoop (algo : PoWAlgo) (userdata target : List Char) : Nat → Nat → MineResult
  | 0, _ => .exhausted
  | fuel + 1, nonce =>
    let hash := algo.calculate userdata nonce
    if target.length ≤ hash.length then
      if hash.take target.length = target then .found hash nonce
      else mineLoop algo userdata target fuel (nonce + 1)
    else .fault

/-- `PoW::calculate_pow` with explicit fuel bounding the nonce search;
`fault` models the panics (division by zero, overflow, slice out of
bounds). -/
def PoW.calculate_pow (p : PoW) (fuel : Nat) : MineResult :=
  let userdata := p.userdata.merge
  let username_length := p.userdata.username_length
  match PoW.adjust_difficulty username_length p.difficulty with
  | none => .fault
  | some adjusted_difficulty =>
    match PoW.calculate_target adjusted_difficulty with
    | none => .fault
    | some target => mineLoop p.algo userdata target fuel 0

/-- `PoW::verify_pow`; `none` models the panics (division by zero, overflow,
slice out of bounds). -/
def PoW.verify_pow (p : PoW) (pow_value : List Char × Nat) : Option Bool :=
  let userdata := p.userdata.merge
  let username_length := p.userdata.username_length
  match PoW.adjust_difficulty username_length p.difficulty with
  | none => none
  | some adjusted_difficulty =>
    match PoW.calculate_target adjusted_difficulty with
    | none => none
    | some target =>
      let input_hash := pow_value.1
      let nonce := pow_value.2
      let computed_hash := p.algo.calculate userdata nonce
      if target.length ≤ computed_hash.length then
        some (if computed_hash.take target.length = target ∧ computed_hash = input_hash
              then true else false)
      else none

/-- The userdata of the repository's own test fixtures. -/
def zeronetUser : UserData :=
  ⟨chars "zeronet_user", chars "1FBbx487PoajzgnA4yY6TnoLFhQQteT8UX"⟩

/-- The reference scenario: base difficulty 10 over the fixture userdata. -/
def pow10 : PoW := ⟨zeronetUser, 10, .sha256⟩

/-- The reference digest of the scenario in the spec. -/
def refDigest : List Char :=
  chars "00000d311bf66540c9a555f704c27df88e0d5172155771e69d3c7849f2eb07f9"

/-- Small concrete instance: username `aj`, auth address `x`, difficulty 2,
so the adjusted difficulty is 1 and the target is the single hex digit 1. -/
def powAJ : PoW := ⟨⟨chars "aj", chars "x"⟩, 2, .sha256⟩

/-- SHA-256 of `x:aj:1`: the first digest in the `powAJ` search whose first
character matches the target `1`. -/
def hashAJ1 : List Char :=
  chars "149443fcc33f692469bacec10c6417a301d2767c995d4365a38e69d9e35af252"

/-- Small concrete instance: username `acc`, auth address `x`, difficulty 2,
so the adjusted difficulty is 0 and the target is the single hex digit 0. -/
def powACC : PoW := ⟨⟨chars "acc", chars "x"⟩, 2, .sha256⟩

/-- SHA-256 of `x:acc:1`: the first digest in the `powACC` search whose first
character matches the target `0`. -/
def hashACC1 : List Char :=
  chars "05497e0f121ce810786bad557614055d19aa7f718a3985b64887979eefcc817b"

/-! ### Splitting on `:` -/

theorem notColon_iff (c : Char) : notColon c = true ↔ c ≠ ':' := by
  simp [notColon]

theorem splitCore_no_colon :
    ∀ (cs acc : List Char), ':' ∉ cs → splitCore cs acc = [acc.reverse ++ cs] := by
  intro cs
  induction cs with
  | nil => intro acc _; simp [splitCore]
  | cons c cs ih =>
    intro acc h
    rw [List.mem_cons, not_or] at h
    have hc : c ≠ ':' := fun e => h.1 e.symm
    simp only [splitCore, if_neg hc]
    rw [ih (c :: acc) h.2]
    simp

theorem splitCore_colon :
    ∀ (cs acc : List Char), ':' ∈ cs →
      splitCore cs acc =
        (acc.reverse ++ cs.takeWhile notColon) ::
          splitCore ((cs.dropWhile notColon).tail) [] := by
  intro cs
  induction cs with
  | nil => intro acc h; simp at h
  | cons c cs ih =>
    intro acc h
    by_cases hc : c = ':'
    · subst hc
      have hnc : ¬ notColon ':' = true := by simp [notColon]
      simp [splitCore, List.takeWhile_cons_of_neg hnc, List.dropWhile_cons_of_neg hnc]
    · have hmem : ':' ∈ cs := by
        rcases List.mem_cons.mp h with h1 | h1
        · exact absurd h1.symm hc
        · exact h1
      have hnc : notColon c = true := (notColon_iff c).mpr hc
      simp only [splitCore, if_neg hc]
      rw [ih (c :: acc) hmem]
      simp [List.takeWhile_cons_of_pos hnc, List.dropWhile_cons_of_pos hnc]

theorem splitCore_ne_nil : ∀ (cs acc : List Char), splitCore cs acc ≠ [] := by
  intro cs
  induction cs with
  | nil => intro acc; simp [splitCore]
  | cons c cs ih =>
    intro acc
    by_cases hc : c = ':'
    · simp [splitCore, if_pos hc]
    · simp only [splitCore, if_neg hc]
      exact ih (c :: acc)

theorem takeWhile_of_no_colon :
    ∀ (u : List Char), ':' ∉ u → u.takeWhile notColon = u := by
  intro u
  induction u with
  | nil => intro _; rfl
  | cons c cs ih =>
    intro h
    rw [List.mem_cons, not_or] at h
    have hc : notColon c = true := (notColon_iff c).mpr (fun e => h.1 e.symm)
    rw [List.takeWhile_cons_of_pos hc, ih h.2]

theorem splitCore_head :
    ∀ cs : List Char, (splitCore cs []).get? 0 = some (cs.takeWhile notColon) := by
  intro cs
  by_cases h : ':' ∈ cs
  · rw [splitCore_colon cs [] h]; rfl
  · rw [splitCore_no_colon cs [] h]
    simp [takeWhile_of_no_colon cs h]

theorem takeWhile_append_colon (a u : List Char) (ha : ':' ∉ a) :
    (a ++ ':' :: u).takeWhile notColon = a := by
  induction a with
  | nil =>
    have hnc : ¬ notColon ':' = true := by simp [notColon]
    simp [List.takeWhile_cons_of_neg hnc]
  | cons c cs ih =>
    rw [List.mem_cons, not_or] at ha
    have hc : notColon c = true := (notColon_iff c).mpr (fun e => ha.1 e.symm)
    rw [List.cons_append, List.takeWhile_cons_of_pos hc, ih ha.2]

theorem dropWhile_append_colon (a u : List Char) (ha : ':' ∉ a) :
    (a ++ ':' :: u).dropWhile notColon = ':' :: u := by
  induction a with
  | nil =>
    have hnc : ¬ notColon ':' = true := by simp [notColon]
    simp [List.dropWhile_cons_of_neg hnc]
  | cons c cs ih =>
    rw [List.mem_cons, not_or] at ha
    have hc : notColon c = true := (notColon_iff c).mpr (fun e => ha.1 e.symm)
    rw [List.cons_append, List.dropWhile_cons_of_pos hc, ih ha.2]

theorem from_merged_of_colon (s : List Char) (h : ':' ∈ s) :
    UserData.from_merged s =
      some ⟨((s.dropWhile notColon).tail).takeWhile notColon, s.takeWhile notColon⟩ := by
  unfold UserData.from_merged splitColon
  rw [splitCore_colon s [] h]
  simp only [List.nil_append, List.reverse_nil]
  have h1 : ((s.takeWhile notColon :: splitCore ((s.dropWhile notColon).tail) []).get? 1)
      = (splitCore ((s.dropWhile notColon).tail) []).get? 0 := rfl
  rw [h1, splitCore_head]
  rfl

theorem from_merged_of_no_colon (s : List Char) (h : ':' ∉ s) :
    UserData.from_merged s = none := by
  unfold UserData.from_merged splitColon
  rw [splitCore_no_colon s [] h]
  rfl

/-- Claim C4 (confirmed): round-trip — for username and auth address that
contain no colon, parsing the merged string reproduces both fields
unchanged. -/
theorem c4_roundtrip (u a : List Char) (hu : ':' ∉ u) (ha : ':' ∉ a) :
    UserData.from_merged ((UserData.new u a).merge) = some (UserData.new u a) := by
  have hm : ':' ∈ (UserData.new u a).merge := by
    unfold UserData.new UserData.merge
    simp
  rw [from_merged_of_colon _ hm]
  unfold UserData.new UserData.merge
  simp only
  rw [takeWhile_append_colon a u ha, dropWhile_append_colon a u ha]
  simp only [List.tail_cons]
  rw [takeWhile_of_no_colon u hu]

/-- Witness for C4 at a concrete username and address. -/
theorem c4_roundtrip_witness :
    UserData.from_merged ((UserData.new (chars "bob") (chars "addr")).merge)
      = some (UserData.new (chars "bob") (chars "addr")) :=
  c4_roundtrip (chars "bob") (chars "addr") (by decide) (by decide)

/-- Claim C10 (confirmed): `from_merged` is `none` exactly when the input
has no colon; on any input with a colon it returns the record whose auth
address is token 0 and whose username is token 1 (the text between the first
and second colon), tokens past index 1 ignored; the input `:` parses to a
record with both fields empty. -/
theorem c10_from_merged_spec :
    (∀ s : List Char, UserData.from_merged s = none ↔ ':' ∉ s) ∧
    (∀ s : List Char, ':' ∈ s →
      UserData.from_merged s =
        some ⟨((s.dropWhile notColon).tail).takeWhile notColon, s.takeWhile notColon⟩) ∧
    UserData.from_merged [':'] = some ⟨[], []⟩ := by
  refine ⟨?_, from_merged_of_colon, by decide⟩
  intro s
  constructor
  · intro hnone
    intro hmem
    rw [from_merged_of_colon s hmem] at hnone
    exact Option.noConfusion hnone
  · exact from_merged_of_no_colon s

/-- Witness for C10: an input with no colon yields no record. -/
theorem c10_from_merged_spec_witness :
    UserData.from_merged (chars "nocolonhere") = none :=
  (c10_from_merged_spec.1 (chars "nocolonhere")).mpr (by decide)

/-! ### The mining loop -/

theorem mineLoop_found_inv (algo : PoWAlgo) (u t : List Char) :
    ∀ (fuel start n : Nat) (hd : List Char),
      mineLoop algo u t fuel start = .found hd n →
      hd = algo.calculate u n ∧ t.length ≤ hd.length ∧ hd.take t.length = t ∧
        start ≤ n ∧
        ∀ m, start ≤ m → m < n → (algo.calculate u m).take t.length ≠ t := by
  intro fuel
  induction fuel with
  | zero =>
    intro start n hd hm
    simp [mineLoop] at hm
  | succ f ih =>
    intro start n hd hm
    simp only [mineLoop] at hm
    by_cases hlen : t.length ≤ (algo.calculate u start).length
    · rw [if_pos hlen] at hm
      by_cases hmatch : (algo.calculate u start).take t.length = t
      · rw [if_pos hmatch] at hm
        cases hm
        exact ⟨rfl, hlen, hmatch, Nat.le_refl _, fun m h1 h2 => absurd h2 (by omega)⟩
      · rw [if_neg hmatch] at hm
        obtain ⟨e1, e2, e3, e4, e5⟩ := ih (start + 1) n hd hm
        refine ⟨e1, e2, e3, by omega, ?_⟩
        intro m hm1 hm2
        rcases Nat.eq_or_lt_of_le hm1 with h1 | h1
        · rw [← h1]; exact hmatch
        · exact e5 m h1 hm2
    · rw [if_neg hlen] at hm
      exact MineResult.noConfusion hm

/-- Claim C1 (corrected): the mining target is not a run of zeros but the
lowercase hex rendering of `2 ^ (adjustedDifficulty mod 2 ^ 32) - 1` — the
exponent passes through Rust's `as u32` cast, which truncates it modulo
`2 ^ 32`; what `calculate_pow` returns is the first (digest, nonce) whose
digest starts with that target.
This theorem proves the amended claim: given the adjusted difficulty and
target of the proof-of-work instance, a `found` result of the search is the
hash of the merged userdata at the returned nonce, it starts with the hex
rendering of `2 ^ (adjustedDifficulty mod 2 ^ 32) - 1`, and no smaller
nonce (the search begins at 0 and increments by 1) produces a matching
digest. -/
theorem c1_mining_first_match (p : PoW) (fuel n ad : Nat) (h t : List Char)
    (had : PoW.adjust_difficulty p.userdata.username_length p.difficulty = some ad)
    (htgt : PoW.calculate_target ad = some t)
    (hm : p.calculate_pow fuel = .found h n) :
    t = natHex (2 ^ (ad % 4294967296) - 1) ∧
    h = p.algo.calculate p.userdata.merge n ∧
    h.take t.length = t ∧
    ∀ m, m < n → (p.algo.calculate p.userdata.merge m).take t.length ≠ t := by
  have ht : t = natHex (2 ^ (ad % 4294967296) - 1) := by
    unfold PoW.calculate_target at htgt
    by_cases h64 : ad % 4294967296 < 64
    · rw [if_pos h64] at htgt
      exact (Option.some.injEq _ _ ▸ htgt).symm
    · rw [if_neg h64] at htgt
      exact Option.noConfusion htgt
  simp only [PoW.calculate_pow, had, htgt] at hm
  obtain ⟨e1, _, e3, _, e5⟩ := mineLoop_found_inv p.algo p.userdata.merge t fuel 0 n h hm
  exact ⟨ht, e1, e3, fun m hmn => e5 m (Nat.zero_le m) hmn⟩

/-- Witness for C1 at the concrete instance `powAJ` (adjusted difficulty 1,
target `1`, first matching nonce 1). -/
theorem c1_mining_first_match_witness : hashAJ1.take (chars "1").length = chars "1" :=
  (c1_mining_first_match powAJ 5 1 1 hashAJ1 (chars "1")
    (by decide) (by decide) (by decide)).2.2.1

/-- Counterexample to C1 as stated: at adjusted difficulty 5 the target is
`1f`, not five zero characters; and on the `powAJ` instance (adjusted
difficulty 1) the digest that `calculate_pow` returns does not begin with a
zero hex digit. -/
theorem c1_counterexample :
    PoW.calculate_target 5 = some (chars "1f") ∧
    chars "1f" ≠ List.replicate 5 '0' ∧
    PoW.calculate_pow powAJ 5 = .found hashAJ1 1 ∧
    hashAJ1.take 1 ≠ List.replicate 1 '0' := by
  refine ⟨by decide, by decide, by decide, by decide⟩

/-- Claim C3 (confirmed): whenever `calculate_pow` returns a (digest, nonce)
pair, `verify_pow` on the same `PoW` accepts that pair. -/
theorem c3_calculate_verify_agree (p : PoW) (fuel n : Nat) (h : List Char)
    (_hd : 2 ≤ p.difficulty)
    (hm : p.calculate_pow fuel = .found h n) :
    p.verify_pow (h, n) = some true := by
  cases hadj : PoW.adjust_difficulty p.userdata.username_length p.difficulty with
  | none =>
    simp only [PoW.calculate_pow, hadj] at hm
    exact MineResult.noConfusion hm
  | some ad =>
    cases htgt : PoW.calculate_target ad with
    | none =>
      simp only [PoW.calculate_pow, hadj, htgt] at hm
      exact MineResult.noConfusion hm
    | some t =>
      simp only [PoW.calculate_pow, hadj, htgt] at hm
      obtain ⟨e1, e2, e3, _, _⟩ :=
        mineLoop_found_inv p.algo p.userdata.merge t fuel 0 n h hm
      simp only [PoW.verify_pow, hadj, htgt]
      rw [← e1, if_pos e2, if_pos ⟨e3, rfl⟩]

/-- Witness for C3 at the concrete instance `powAJ`. -/
theorem c3_calculate_verify_agree_witness : powAJ.verify_pow (hashAJ1, 1) = some true :=
  c3_calculate_verify_agree powAJ 5 1 hashAJ1 (by decide) (by decide)

/-- Claim C8 (corrected): at adjusted difficulty 0 the target is the single
character `0` (the hex rendering of `2 ^ 0 - 1 = 0`), not the empty string,
and `calculate_pow` does not return immediately at nonce 0: it returns the
first nonce whose digest begins with the hex digit 0. This theorem proves
the amended claim. -/
theorem c8_zero_difficulty (p : PoW) (fuel n : Nat) (h : List Char)
    (had : PoW.adjust_difficulty p.userdata.username_length p.difficulty = some 0)
    (hm : p.calculate_pow fuel = .found h n) :
    PoW.calculate_target 0 = some ['0'] ∧
    h.take 1 = ['0'] ∧
    ∀ m, m < n → (p.algo.calculate p.userdata.merge m).take 1 ≠ ['0'] := by
  have htgt : PoW.calculate_target 0 = some ['0'] := by decide
  simp only [PoW.calculate_pow, had, htgt] at hm
  obtain ⟨e1, e2, e3, _, e5⟩ :=
    mineLoop_found_inv p.algo p.userdata.merge ['0'] fuel 0 n h hm
  exact ⟨htgt, e3, fun m hmn => e5 m (Nat.zero_le m) hmn⟩

/-- Witness for C8 at the concrete instance `powACC` (adjusted difficulty 0,
first matching nonce 1). -/
theorem c8_zero_difficulty_witness : hashACC1.take 1 = ['0'] :=
  (c8_zero_difficulty powACC 5 1 hashACC1 (by decide) (by decide)).2.1

/-- Counterexample to C8 as stated: on the `powACC` instance the adjusted
difficulty is 0, yet the target is `0` rather than the empty string, and
`calculate_pow` returns nonce 1, not nonce 0 (the digest at nonce 0 does not
begin with a zero hex digit). -/
theorem c8_counterexample :
    PoW.adjust_difficulty powACC.userdata.username_length powACC.difficulty = some 0 ∧
    PoW.calculate_target 0 ≠ some [] ∧
    PoW.calculate_pow powACC 5 = .found hashACC1 1 ∧
    (PoWAlgo.calculate .sha256 powACC.userdata.merge 0).take 1 ≠ ['0'] := by
  refine ⟨by decide, by decide, by decide, by decide⟩

/-! ### Digest and target lengths -/

theorem concatMap_length_const (f : α → List β) (k : Nat) (hf : ∀ a, (f a).length = k) :
    ∀ l : List α, (concatMap f l).length = k * l.length := by
  intro l
  induction l with
  | nil => simp [concatMap]
  | cons a as ih =>
    simp only [concatMap, List.length_append, List.length_cons, hf, ih]
    ring

theorem roundStep_length (st : List Nat) (kw : Nat) : (roundStep st kw).length = 8 := rfl

theorem foldl_roundStep_length :
    ∀ (l : List Nat) (st : List Nat), st.length = 8 → (l.foldl roundStep st).length = 8 := by
  intro l
  induction l with
  | nil => intro st h; exact h
  | cons k ks ih =>
    intro st _
    simp only [List.foldl_cons]
    exact ih (roundStep st k) (roundStep_length st k)

theorem compressBlock_length (st block : List Nat) (h : st.length = 8) :
    (compressBlock st block).length = 8 := by
  simp only [compressBlock, List.length_zipWith,
    foldl_roundStep_length _ st h, h]
  rfl

theorem processBlocks_length :
    ∀ (fuel : Nat) (st ws : List Nat), st.length = 8 → (processBlocks fuel st ws).length = 8 := by
  intro fuel
  induction fuel with
  | zero => intro st ws h; cases ws <;> simpa [processBlocks]
  | succ f ih =>
    intro st ws h
    cases ws with
    | nil => simpa [processBlocks]
    | cons w rest =>
      simp only [processBlocks]
      exact ih _ _ (compressBlock_length st _ h)

theorem sha256_length (msg : List Nat) : (sha256 msg).length = 32 := by
  simp only [sha256]
  rw [concatMap_length_const wordBytes 4 (fun w => rfl)]
  rw [processBlocks_length _ H0 _ rfl]

theorem digestHex_length (bs : List Nat) : (digestHex bs).length = 2 * bs.length := by
  exact concatMap_length_const byteHex 2 (fun b => rfl) bs

theorem calculate_length (algo : PoWAlgo) (u : List Char) (n : Nat) :
    (algo.calculate u n).length = 64 := by
  cases algo
  simp only [PoWAlgo.calculate]
  rw [digestHex_length, sha256_length]

theorem natHexAux_length_le :
    ∀ (fuel k n : Nat) (acc : List Char),
      n < 16 ^ k → (natHexAux fuel n acc).length ≤ k + acc.length := by
  intro fuel
  induction fuel with
  | zero =>
    intro k n acc _
    cases n <;> simp [natHexAux]
  | succ f ih =>
    intro k n acc hk
    cases n with
    | zero => simp [natHexAux]
    | succ m =>
      cases k with
      | zero => simp at hk
      | succ j =>
        have h2 : (m + 1) / 16 < 16 ^ j := by
          apply Nat.div_lt_of_lt_mul
          calc m + 1 < 16 ^ (j + 1) := hk
            _ = 16 * 16 ^ j := by ring
        have := ih j ((m + 1) / 16) (Nat.digitChar ((m + 1) % 16) :: acc) h2
        simp only [natHexAux]
        simp only [List.length_cons] at this
        omega

theorem natHex_length_le (n : Nat) (h : n < 2 ^ 64) : (natHex n).length ≤ 16 := by
  unfold natHex
  by_cases h0 : n = 0
  · simp [h0]
  · rw [if_neg h0]
    have h16 : n < 16 ^ 16 := by
      have : (16 : Nat) ^ 16 = 2 ^ 64 := by norm_num
      omega
    simpa using natHexAux_length_le n 16 n [] h16

theorem mineLoop_ne_fault (algo : PoWAlgo) (u t : List Char) (ht : t.length ≤ 64) :
    ∀ fuel start, mineLoop algo u t fuel start ≠ .fault := by
  intro fuel
  induction fuel with
  | zero => intro start; simp [mineLoop]
  | succ f ih =>
    intro start
    have hlen : t.length ≤ (algo.calculate u start).length := by
      rw [calculate_length]; exact ht
    simp only [mineLoop]
    rw [if_pos hlen]
    by_cases hmatch : (algo.calculate u start).take t.length = t
    · rw [if_pos hmatch]; simp
    · rw [if_neg hmatch]; exact ih (start + 1)

/-- Claim C7 (corrected): the degenerate inputs are NOT all guarded — base
difficulty 0 or 1 reaches a division by zero in `adjust_difficulty`, and
`calculate_target` reaches an arithmetic overflow in `usize::pow` (modelled
as `none`) exactly when the exponent left after the `as u32` truncation is
64 or more. The truncation itself is not a fault: adjusted difficulty
`2 ^ 32` truncates to exponent 0 and yields the target `0` with no fault.
The amended claim, proved here: those faults are the only ones; for base
difficulty between 2 and 63 the adjusted difficulty stays below 64, the
target has at most 16 of the digest's 64 hex characters, and
`calculate_pow` / `verify_pow` never reach the out-of-bounds slice. -/
theorem c7_degenerate_difficulty (p : PoW) (h2 : 2 ≤ p.difficulty) (h64 : p.difficulty < 64) :
    (∀ l, PoW.adjust_difficulty l 0 = none) ∧
    (∀ l, PoW.adjust_difficulty l 1 = none) ∧
    (∀ d, 64 ≤ d % 4294967296 → PoW.calculate_target d = none) ∧
    PoW.calculate_target (2 ^ 32) = some ['0'] ∧
    (∀ fuel, p.calculate_pow fuel ≠ .fault) ∧
    (∀ pv, p.verify_pow pv ≠ none) := by
  have hhalf : ¬ p.difficulty / 2 = 0 := by omega
  set L := p.userdata.username_length with hL
  have hadj : PoW.adjust_difficulty L p.difficulty
      = some (p.difficulty / max 1 (L / (p.difficulty / 2))) := by
    unfold PoW.adjust_difficulty
    rw [if_neg hhalf]
  set ad := p.difficulty / max 1 (L / (p.difficulty / 2)) with had
  have hadlt : ad < 64 := Nat.lt_of_le_of_lt (Nat.div_le_self _ _) h64
  have hmod : ad % 4294967296 = ad := Nat.mod_eq_of_lt (by omega)
  have htgt : PoW.calculate_target ad = some (natHex (2 ^ ad - 1)) := by
    unfold PoW.calculate_target
    rw [hmod, if_pos hadlt]
  have htlen : (natHex (2 ^ ad - 1)).length ≤ 64 := by
    have hbound : 2 ^ ad - 1 < 2 ^ 64 := by
      have h1 : (2 : Nat) ^ ad ≤ 2 ^ 63 := Nat.pow_le_pow_right (by norm_num) (by omega)
      have h2 : (2 : Nat) ^ 63 < 2 ^ 64 := by norm_num
      omega
    have := natHex_length_le (2 ^ ad - 1) hbound
    omega
  refine ⟨fun l => rfl, fun l => rfl, ?_, by decide, ?_, ?_⟩
  · intro d hd
    unfold PoW.calculate_target
    rw [if_neg (by omega)]
  · intro fuel
    simp only [PoW.calculate_pow, hadj, htgt]
    exact mineLoop_ne_fault p.algo p.userdata.merge _ htlen fuel 0
  · intro pv
    simp only [PoW.verify_pow, hadj, htgt]
    rw [if_pos (by rw [calculate_length]; exact htlen)]
    simp

/-- Witness for C7: a concrete in-range instance never faults in
verification. -/
theorem c7_degenerate_difficulty_witness : powAJ.verify_pow (chars "abc", 0) ≠ none :=
  (c7_degenerate_difficulty powAJ (by decide) (by decide)).2.2.2.2.2 (chars "abc", 0)

/-- Counterexample to C7 as stated: `adjust_difficulty` divides by zero at
base difficulty 0 and 1 (the `none` outcome models the Rust panic), and
`calculate_target` overflows at adjusted difficulty 64 (64 is unchanged by
the `as u32` truncation and exceeds what a 64-bit usize can hold). -/
theorem c7_counterexample :
    PoW.adjust_difficulty 5 0 = none ∧
    PoW.adjust_difficulty 5 1 = none ∧
    PoW.calculate_target 64 = none := by
  refine ⟨by decide, by decide, by decide⟩

/-! ### Username length -/

theorem strUtf8_cons (c : Char) (u : List Char) :
    strUtf8 (c :: u) = charUtf8 c ++ strUtf8 u := rfl

theorem charUtf8_length_pos (c : Char) : 1 ≤ (charUtf8 c).length := by
  simp only [charUtf8]
  split_ifs <;> simp

theorem charUtf8_length_eq_one_iff (c : Char) :
    (charUtf8 c).length = 1 ↔ c.toNat < 128 := by
  simp only [charUtf8]
  split_ifs with h1 h2 h3 <;> simp [h1]

theorem length_le_strUtf8 : ∀ u : List Char, u.length ≤ (strUtf8 u).length := by
  intro u
  induction u with
  | nil => simp [strUtf8, concatMap]
  | cons c cs ih =>
    rw [strUtf8_cons, List.length_append, List.length_cons]
    have := charUtf8_length_pos c
    omega

theorem strUtf8_length_eq_iff :
    ∀ u : List Char, (strUtf8 u).length = u.length ↔ ∀ c ∈ u, c.toNat < 128 := by
  intro u
  induction u with
  | nil => simp [strUtf8, concatMap]
  | cons c cs ih =>
    rw [strUtf8_cons, List.length_append, List.length_cons]
    constructor
    · intro h
      have h1 := charUtf8_length_pos c
      have h2 := length_le_strUtf8 cs
      have hc : (charUtf8 c).length = 1 := by omega
      have hcs : (strUtf8 cs).length = cs.length := by omega
      intro x hx
      rcases List.mem_cons.mp hx with h3 | h3
      · rw [h3]; exact (charUtf8_length_eq_one_iff c).mp hc
      · exact (ih.mp hcs) x h3
    · intro h
      have hc : (charUtf8 c).length = 1 :=
        (charUtf8_length_eq_one_iff c).mpr (h c (List.mem_cons_self c cs))
      have hcs : (strUtf8 cs).length = cs.length :=
        ih.mpr (fun x hx => h x (List.mem_cons_of_mem c hx))
      omega

/-- Claim C9 (corrected): `username_length` is Rust `String::len`, the UTF-8
BYTE count of the username, not the count of Unicode scalar values; it is
what feeds the difficulty formula. This theorem proves the amended claim:
the byte count dominates the scalar count, with equality exactly when the
username is pure ASCII. -/
theorem c9_username_length_bytes (u a : List Char) :
    specUsernameScalarCount ⟨u, a⟩ ≤ UserData.username_length ⟨u, a⟩ ∧
    (UserData.username_length ⟨u, a⟩ = specUsernameScalarCount ⟨u, a⟩ ↔
      ∀ c ∈ u, c.toNat < 128) := by
  unfold UserData.username_length specUsernameScalarCount
  exact ⟨length_le_strUtf8 u, strUtf8_length_eq_iff u⟩

/-- Witness for C9 at a concrete ASCII username. -/
theorem c9_username_length_bytes_witness :
    UserData.username_length ⟨chars "abc", []⟩ = specUsernameScalarCount ⟨chars "abc", []⟩ :=
  (c9_username_length_bytes (chars "abc") []).2.mpr (by decide)

/-- Counterexample to C9 as stated: for the one-character username `é`
(U+00E9, two UTF-8 bytes) `username_length` returns the byte count 2, not
the Unicode-scalar count 1. -/
theorem c9_counterexample :
    UserData.username_length ⟨['é'], []⟩ = 2 ∧
    specUsernameScalarCount ⟨['é'], []⟩ = 1 ∧
    UserData.username_length ⟨['é'], []⟩ ≠ specUsernameScalarCount ⟨['é'], []⟩ := by
  refine ⟨by decide, by decide, by decide⟩

/-! ### Difficulty adjustment and reference vectors -/

/-- Claim C6 (confirmed): `adjust_difficulty` is base difficulty divided by
`max 1 (usernameLength / (baseDifficulty / 2))`, all divisions integer floor
division (defined whenever the base difficulty is at least 2), and the four
table entries for base difficulty 6 hold. -/
theorem c6_adjust_difficulty_spec :
    (∀ l d, 2 ≤ d → PoW.adjust_difficulty l d = some (d / max 1 (l / (d / 2)))) ∧
    PoW.adjust_difficulty 2 6 = some 6 ∧
    PoW.adjust_difficulty 7 6 = some 3 ∧
    PoW.adjust_difficulty 10 6 = some 2 ∧
    PoW.adjust_difficulty 18 6 = some 1 := by
  refine ⟨?_, by decide, by decide, by decide, by decide⟩
  intro l d _
  unfold PoW.adjust_difficulty
  rw [if_neg (by omega)]

/-- Witness for C6 at a concrete in-range input. -/
theorem c6_adjust_difficulty_spec_witness : PoW.adjust_difficulty 5 7 = some 7 :=
  (c6_adjust_difficulty_spec.1 5 7 (by norm_num)).trans (by decide)

/-- Claim C5 (confirmed): `PoWAlgo::Sha256.calculate` on the fixture text and
nonce 666 produces exactly the reference digest, a 64-character lowercase
hex string. (That `calculate` hashes the UTF-8 bytes of the text followed by
a literal colon and the decimal nonce, with no length prefixing, is the
definition of `PoWAlgo.calculate` in this embedding.) -/
theorem c5_hash_vector :
    PoWAlgo.calculate .sha256 (chars "1FBbx487PoajzgnA4yY6TnoLFhQQteT8UX:zeronet_user") 666
      = chars "0729afa04e84848b8535f35df9dab0bad39b1e4c56a2d82443e2ecd89aca1483" ∧
    (PoWAlgo.calculate .sha256
        (chars "1FBbx487PoajzgnA4yY6TnoLFhQQteT8UX:zeronet_user") 666).length = 64 ∧
    ∀ c ∈ PoWAlgo.calculate .sha256
        (chars "1FBbx487PoajzgnA4yY6TnoLFhQQteT8UX:zeronet_user") 666,
      c.isDigit ∨ ('a' ≤ c ∧ c ≤ 'f') := by
  have h : PoWAlgo.calculate .sha256
      (chars "1FBbx487PoajzgnA4yY6TnoLFhQQteT8UX:zeronet_user") 666
      = chars "0729afa04e84848b8535f35df9dab0bad39b1e4c56a2d82443e2ecd89aca1483" := by
    decide
  refine ⟨h, by rw [h]; decide, by rw [h]; decide⟩

/-- Claim C2 (corrected): with base difficulty 10 over the fixture userdata
the adjusted difficulty is indeed 5, but the target is the hex string `1f`
(the lower-hex of `2 ^ 5 - 1`), not `00000`, so mining searches for a digest
beginning `1f`; and `verify_pow` REJECTS the reference pair — its digest is
the genuine hash at nonce 1276692, but it begins `00`, failing the `1f`
target comparison. This theorem proves the amended claim. -/
theorem c2_reference_scenario :
    PoW.adjust_difficulty zeronetUser.username_length 10 = some 5 ∧
    PoW.calculate_target 5 = some (chars "1f") ∧
    PoWAlgo.calculate .sha256 zeronetUser.merge 1276692 = refDigest ∧
    pow10.verify_pow (refDigest, 1276692) = some false := by
  refine ⟨by decide, by decide, by decide, by decide⟩

/-- Counterexample to C2 as stated: verification of the reference pair does
not return true. -/
theorem c2_counterexample : pow10.verify_pow (refDigest, 1276692) ≠ some true := by
  decide

end AnonID
